import Mathlib

/-!
Verification of the sonification pipeline (event normalizer, shaping passes,
temporal scaler, WAV container) against its specification.

Conventions of the embedding:
* JavaScript numbers that always hold integers are modelled as `Int`.
* `Math.round(x)` on an exact fraction `a / b` (with `b > 0`) is modelled by
  `roundDiv a b = ⌊a / b + 1/2⌋`, computed with integer floor division so that
  every definition evaluates by kernel reduction.
* `Math.floor` on integers is `Int.fdiv`; the JavaScript `%` operator
  (truncated remainder, sign of the dividend) is `Int.tmod`.
* Symbolic note names are `String`s exactly as in the source; internal events
  store the MIDI number (the source stores `midiToNoteName` of that number and
  re-parses it with `noteNameToMidi`; the round-trip theorem below justifies
  carrying the number).
* `Array.prototype.sort` (a stable sort) is modelled by a stable insertion
  sort on the same comparator.
-/

/-- JavaScript `Math.round (a / b)` for integers `a`, `b` with `b > 0`:
`⌊a/b + 1/2⌋ = ⌊(2a+b)/(2b)⌋`, computed by integer floor division. -/
def roundDiv (a b : Int) : Int := (2 * a + b).fdiv (2 * b)

theorem roundDiv_eq_floor (a b : Int) (hb : 0 < b) :
    roundDiv a b = ⌊(a : ℚ) / (b : ℚ) + 1 / 2⌋ := by
  have h2b : (0 : Int) ≤ 2 * b := by omega
  have hd : ((2 * b).toNat : Int) = 2 * b := Int.toNat_of_nonneg h2b
  have hq : (a : ℚ) / (b : ℚ) + 1 / 2 =
      ((2 * a + b : Int) : ℚ) / (((2 * b).toNat : ℕ) : ℚ) := by
    have hb0 : (b : ℚ) ≠ 0 := by exact_mod_cast hb.ne'
    have : (((2 * b).toNat : ℕ) : ℚ) = 2 * (b : ℚ) := by exact_mod_cast hd
    rw [this]
    push_cast
    field_simp
    ring
  rw [roundDiv, hq, Rat.floor_intCast_div_natCast, Int.fdiv_eq_ediv _ h2b, hd]

theorem roundDiv_intCast (t : Int) : roundDiv t 1 = t := by
  rw [roundDiv, Int.fdiv_eq_ediv _ (by omega)]
  omega

/-- An internal musical event: MIDI note number, start time (ms), duration
(ms) and velocity, mirroring `InternalEvent` of the source (which stores the
note as `noteName`; see `noteNameToMidi_midiToNoteName` for the round-trip). -/
structure MEvent where
  note : Int
  time : Int
  duration : Int
  velocity : Int
deriving Repr, DecidableEq

instance : Inhabited MEvent := ⟨⟨60, 0, 0, 80⟩⟩

/-- `events.reduce((m,e) => Math.max(m, e.time + e.duration), 0)` — the end of
the plan. -/
def planEnd (l : List MEvent) : Int :=
  l.foldl (fun m e => max m (e.time + e.duration)) 0

/-- Stable insertion used to model `events.sort((a,b) => a.time - b.time)`. -/
def insertByTime (e : MEvent) : List MEvent → List MEvent
  | [] => [e]
  | x :: xs => if x.time ≤ e.time then x :: insertByTime e xs else e :: x :: xs

def sortByTime (l : List MEvent) : List MEvent := l.foldr insertByTime []

/-- Stable insertion for the comparator
`a.time - b.time || (midi(a) - midi(b))` used before overlap pruning. -/
def insertByTimeNote (e : MEvent) : List MEvent → List MEvent
  | [] => [e]
  | x :: xs =>
    if x.time < e.time ∨ (x.time = e.time ∧ x.note ≤ e.note) then
      x :: insertByTimeNote e xs
    else e :: x :: xs

def sortByTimeNote (l : List MEvent) : List MEvent := l.foldr insertByTimeNote []

/-! ## Pitch / name codec (`lib/gemini.ts` and `api/sonify/route.ts`) -/

/-- `PITCH_CLASS` / `PITCH_NAMES`: the twelve canonical sharp spellings of
the source array, C through B. -/
def pcNames : List String :=
  ["C", "C#", "D", "D#", "E", "F"] ++ ["F#", "G", "G#", "A", "A#", "B"]

/-- `midiToNoteName` (lib/gemini.ts): pitch class by truncated remainder,
octave by floored division, canonical sharp spelling. -/
def midiToNoteName (n : Int) : String :=
  pcNames.getD (((n.tmod 12) + 12).tmod 12).toNat "" ++ toString (n.fdiv 12 - 1)

/-- `LETTER_TO_PC` composed with the regex letter class `[A-Ga-g]` and
`toUpperCase`: the base pitch class of a letter, `none` when the character is
not a note letter. -/
def letterBasePc (c : Char) : Option Int :=
  if c = 'C' ∨ c = 'c' then some 0
  else if c = 'D' ∨ c = 'd' then some 2
  else if c = 'E' ∨ c = 'e' then some 4
  else if c = 'F' ∨ c = 'f' then some 5
  else if c = 'G' ∨ c = 'g' then some 7
  else if c = 'A' ∨ c = 'a' then some 9
  else if c = 'B' ∨ c = 'b' then some 11
  else none

/-- Accidental class `[#b♭♯]` of `noteNameToMidi` (lib/gemini.ts). -/
def accidentalDelta (c : Char) : Option Int :=
  if c = '#' ∨ c = '♯' then some 1
  else if c = 'b' ∨ c = '♭' then some (-1)
  else none

/-- `-?\d{1,2}` digits part: one or two decimal digits. -/
def parseDigits12 : List Char → Option Int
  | [d] => if d.isDigit then some ((d.toNat : Int) - 48) else none
  | [d1, d2] =>
    if d1.isDigit ∧ d2.isDigit then
      some (10 * ((d1.toNat : Int) - 48) + ((d2.toNat : Int) - 48))
    else none
  | _ => none

/-- `-?\d{1,2}` with optional sign, anchored at the end of the name. -/
def parseOctave12 : List Char → Option Int
  | '-' :: ds => (parseDigits12 ds).map (fun n => -n)
  | ds => parseDigits12 ds

/-- JavaScript `String.prototype.trim` on the character list. -/
def jsTrim (cs : List Char) : List Char :=
  ((cs.dropWhile Char.isWhitespace).reverse.dropWhile Char.isWhitespace).reverse

/-- `noteNameToMidi` (lib/gemini.ts): trim, match
`^([A-Ga-g])([#b♭♯]?)(-?\d{1,2})$`, compute `12*(octave+1) + (pc+12)%12` and
reject results outside `[0, 127]`. -/
def noteNameToMidi (s : String) : Option Int :=
  match jsTrim s.data with
  | [] => none
  | c :: rest =>
    match letterBasePc c with
    | none => none
    | some base =>
      let accRest : Int × List Char :=
        match rest with
        | a :: rest2 =>
          match accidentalDelta a with
          | some d => (d, rest2)
          | none => (0, a :: rest2)
        | [] => (0, [])
      match parseOctave12 accRest.2 with
      | none => none
      | some oct =>
        let pc := (base + accRest.1 + 12).tmod 12
        let midi := 12 * (oct + 1) + pc
        if midi < 0 ∨ 127 < midi then none else some midi

/-- `\d+`: a nonempty run of decimal digits (route.ts octave part). -/
def parseDigitsAll (ds : List Char) : Option Int :=
  if ds ≠ [] ∧ ds.all Char.isDigit then
    some (ds.foldl (fun a c => 10 * a + ((c.toNat : Int) - 48)) 0)
  else none

/-- Accidental class `[#b]` of the route-internal converter. -/
def routeAccidental (c : Char) : Option Int :=
  if c = '#' then some 1 else if c = 'b' then some (-1) else none

/-- Body of the route-internal `noteNameToMidi` (route.ts, synthesis section):
match `^([A-Ga-g])([#b]?)(-?\d+)$` without any trim or range check. -/
def routeParse (cs : List Char) : Option Int :=
  match cs with
  | [] => none
  | c :: rest =>
    match letterBasePc c with
    | none => none
    | some base =>
      let accRest : Int × List Char :=
        match rest with
        | a :: rest2 =>
          match routeAccidental a with
          | some d => (d, rest2)
          | none => (0, a :: rest2)
        | [] => (0, [])
      let octPart : Option Int :=
        match accRest.2 with
        | '-' :: ds => (parseDigitsAll ds).map (fun n => -n)
        | ds => parseDigitsAll ds
      match octPart with
      | none => none
      | some oct => some (12 * (oct + 1) + (base + accRest.1 + 12).tmod 12)

/-- The route-internal `noteNameToMidi` used before synthesis: unparseable
names map to 60, results are clamped with `Math.min(84, Math.max(48, ·))`. -/
def noteNameToMidiClamped (s : String) : Int :=
  match routeParse s.data with
  | none => 60
  | some m => min 84 (max 48 m)

/-- `const pan = 0.5 + (evt.note - 60) / 48` of `synthesizePlanToWavBase64`. -/
def panQ (note : Int) : ℚ := 1 / 2 + ((note : ℚ) - 60) / 48

/-- Claim C4: for every pitch index `p` in `[0,127]`, converting to the
canonical sharp note name and parsing back is the identity:
`noteNameToMidi (midiToNoteName p) = some p`. -/
theorem noteNameToMidi_midiToNoteName :
    ∀ p : Fin 128, noteNameToMidi (midiToNoteName (p : Int)) = some (p : Int) := by
  decide

theorem panQ_bounds (m : Int) (h1 : 48 ≤ m) (h2 : m ≤ 84) :
    (1 / 4 : ℚ) ≤ panQ m ∧ panQ m ≤ 1 := by
  have c1 : (48 : ℚ) ≤ (m : ℚ) := by exact_mod_cast h1
  have c2 : (m : ℚ) ≤ 84 := by exact_mod_cast h2
  constructor <;> (rw [panQ]; linarith)

/-- Claim C10: the route-internal note converter always lands in `[48, 84]`
(unparseable names map to 60 before clamping), hence the stereo pan value
`0.5 + (note - 60)/48` lies in `[1/4, 1]` and both equal-power pan radicands
`1 - pan` and `pan` are non-negative, so the pan weights are real. -/
theorem noteNameToMidiClamped_pan_safe :
    ∀ s : String,
      48 ≤ noteNameToMidiClamped s ∧ noteNameToMidiClamped s ≤ 84 ∧
      (1 / 4 : ℚ) ≤ panQ (noteNameToMidiClamped s) ∧
      panQ (noteNameToMidiClamped s) ≤ 1 ∧
      0 ≤ 1 - panQ (noteNameToMidiClamped s) ∧
      0 ≤ panQ (noteNameToMidiClamped s) := by
  intro s
  have hb : 48 ≤ noteNameToMidiClamped s ∧ noteNameToMidiClamped s ≤ 84 := by
    cases h : routeParse s.data <;> simp only [noteNameToMidiClamped, h] <;> omega
  have hp := panQ_bounds _ hb.1 hb.2
  exact ⟨hb.1, hb.2, hp.1, hp.2, by linarith [hp.2], by linarith [hp.1]⟩

/-! ## Event Normalizer (`requestMusicalPlan`, validation and fallback) -/

/-- A raw candidate event as delivered by the external collaborator.  `none`
in `time` models a non-numeric/non-finite value (which fails the
`Number.isFinite` check after rounding); the other options model absent
fields. -/
structure RawEvent where
  noteName : Option String
  pitch : Option String
  time : Option Int
  noteType : Option String
  duration : Option Int
  velocity : Option Int
deriving Repr, DecidableEq

/-- Canonical duration of a categorical `noteType` string, defaulting to 500
(quarter) for unknown labels, as in the validation map. -/
def noteTypeMs (nt : String) : Int :=
  let l := nt.toLower
  if l = "sixteenth" then 125
  else if l = "eighth" then 250
  else if l = "quarter" then 500
  else if l = "half" then 1000
  else if l = "whole" then 2000
  else 500

/-- Bucketing of a raw numeric duration into canonical values by the fixed
thresholds `<190, <375, <750, <1500`. -/
def bucketDuration (d : Int) : Int :=
  if d < 190 then 125
  else if d < 375 then 250
  else if d < 750 then 500
  else if d < 1500 then 1000
  else 2000

/-- Validation/repair of one raw event (the `events.map` body in
`requestMusicalPlan`): resolve `noteName` (falling back to the legacy `pitch`
field), parse it, clamp the MIDI number to `[36, 96]`, clamp the start time to
`≥ 0`, derive the canonical duration (categorical label first, then numeric
bucketing, then the 500 ms default), clamp velocity to `[40, 110]` with
default 80.  Returns `none` when the event must be dropped. -/
def parseRawEvent (r : RawEvent) : Option MEvent :=
  match (match r.noteName with | some s => some s | none => r.pitch) with
  | none => none
  | some name =>
    match noteNameToMidi name with
    | none => none
    | some midi =>
      let clamped := min 96 (max 36 midi)
      match r.time with
      | none => none
      | some t =>
        let ms : Int :=
          match r.noteType with
          | some nt => noteTypeMs nt
          | none =>
            match r.duration with
            | some d => bucketDuration d
            | none => 500
        some ⟨clamped, max 0 t, ms, min 110 (max 40 (r.velocity.getD 80))⟩

/-- The deterministic fallback scaffold built when validation leaves no
events: 24 events over `baseDur` (8000 ms when no target was supplied).
`roundDiv (i * baseDur) 24` is `Math.round(i * baseDur/24)`; the phase
comparisons `i/24 < 0.2`, `< 0.6`, `< 0.85` are the integer comparisons
`5*i < 24`, `5*i < 72`, `20*i < 408`. -/
def fallbackScaffold (baseDur : Int) : List MEvent :=
  (List.range 24).map fun i =>
    let durCategory := i % 6
    let duration : Int :=
      if durCategory < 3 then 220 + (i % 3 : Nat) * 40
      else if durCategory < 5 then 520 + (i % 4 : Nat) * 80
      else 1200
    let velocity : Int :=
      if 5 * i < 24 then 60 + (i % 4 : Nat) * 4
      else if 5 * i < 72 then 75 + (i % 5 : Nat) * 5
      else if 20 * i < 408 then 90 + (i % 3 : Nat) * 6
      else 70 + (i % 4 : Nat) * 5
    let midi : Int := 60 + ((i * 5) % 16 : Nat)
    ⟨min 96 (max 36 midi), roundDiv ((i : Int) * baseDur) 24,
      min 1800 duration, min 110 velocity⟩

/-- The Event Normalizer: validate every raw event, and if nothing survives,
fall back to the deterministic 24-event scaffold over
`targetDurationMs || 8000`. -/
def normalizeEvents (raws : List RawEvent) (targetDurationMs : Int) : List MEvent :=
  let events := raws.filterMap parseRawEvent
  if events = [] then
    fallbackScaffold (if targetDurationMs ≠ 0 then targetDurationMs else 8000)
  else events

/-- Claim C5: for every raw candidate list — including the empty list and
lists where every event fails validation — the Event Normalizer returns a
non-empty list, and whenever validation leaves nothing it returns exactly the
24-event deterministic fallback scaffold whose start times lie in the default
8-second range (no target supplied). -/
theorem normalizeEvents_nonempty :
    ∀ raws : List RawEvent,
      normalizeEvents raws 0 ≠ [] ∧
      (raws.filterMap parseRawEvent = [] →
        normalizeEvents raws 0 = fallbackScaffold 8000 ∧
        (normalizeEvents raws 0).length = 24 ∧
        ∀ e ∈ normalizeEvents raws 0, 0 ≤ e.time ∧ e.time < 8000) := by
  intro raws
  by_cases h : raws.filterMap parseRawEvent = []
  · have he : normalizeEvents raws 0 = fallbackScaffold 8000 := by
      simp [normalizeEvents, h]
    refine ⟨by rw [he]; decide, fun _ => ⟨he, by rw [he]; decide, by rw [he]; decide⟩⟩
  · exact ⟨by simp [normalizeEvents, h], fun hc => absurd hc h⟩

/-- Witness for C5 at a concrete input whose single event has no resolvable
pitch name, so validation drops everything and the fallback fires. -/
theorem normalizeEvents_nonempty_witness :
    ([⟨none, none, none, none, none, none⟩] : List RawEvent).filterMap parseRawEvent = [] ∧
    normalizeEvents [⟨none, none, none, none, none, none⟩] 0 = fallbackScaffold 8000 ∧
    normalizeEvents [⟨none, none, none, none, none, none⟩] 0 ≠ [] := by
  have h := normalizeEvents_nonempty [⟨none, none, none, none, none, none⟩]
  exact ⟨by decide, (h.2 (by decide)).1, h.1⟩

/-! ## Shaping Engine passes (`requestMusicalPlan`) -/

/-- Interval intersection test of the pruning step:
`!(p.time + p.duration <= e.time || e.time + e.duration <= p.time)`. -/
def overlapsB (p e : MEvent) : Bool :=
  !(decide (p.time + p.duration ≤ e.time) || decide (e.time + e.duration ≤ p.time))

/-- The number of events of `l` sounding at instant `t`; an event sounds on
the half-open interval `[time, time + duration)`. -/
def simulCount (l : List MEvent) (t : Int) : Nat :=
  (l.filter (fun e => decide (e.time ≤ t) && decide (t < e.time + e.duration))).length

/-- The pruning loop of `enrichPlan` step 5: walk the (time, pitch)-sorted
list, skip an event when at least 3 already-kept events overlap it, and stop
once 80 events are kept (`maxEvents`). -/
def pruneGo : List MEvent → List MEvent → List MEvent
  | pruned, [] => pruned
  | pruned, e :: rest =>
    if 3 ≤ (pruned.filter (fun p => overlapsB p e)).length then pruneGo pruned rest
    else if 80 ≤ (pruned ++ [e]).length then pruned ++ [e]
    else pruneGo (pruned ++ [e]) rest

/-- Enrichment overlap pruning: sort by time (ties by pitch), then prune. -/
def pruneOverlaps (l : List MEvent) : List MEvent := pruneGo [] (sortByTimeNote l)

/-- Filler pitch stepping of the density pass: alternate large/small
intervals by second index, folding back into `[48, 84]` by octaves. -/
def densityStepMidi (lastMidi s : Int) : Int :=
  let dir : Int :=
    if s.tmod 4 = 0 then 12
    else if s.tmod 3 = 0 then -12
    else if s.tmod 2 = 0 then 7
    else -5
  let c0 := lastMidi + dir
  let c1 := if 84 < c0 then c0 - 12 else c0
  if c1 < 48 then c1 + 12 else c1

/-- Per-second filler generation of the density pass: for each second index
`s` (counting `rem` further seconds) with no event onset in its bucket, emit
one filler at `s*1000 + 40` ms, threading the last filler pitch. -/
def densityGo (bySec : Int → Bool) : Int → Nat → Int → List MEvent
  | _, 0, _ => []
  | s, rem + 1, lastMidi =>
    if bySec s then densityGo bySec (s + 1) rem lastMidi
    else
      let cand := densityStepMidi lastMidi s
      ⟨cand, s * 1000 + 40, if s.tmod 5 = 0 then 500 else 250,
        68 + (s.tmod 6) * 5⟩ :: densityGo bySec (s + 1) rem cand

/-- Whether some event onset falls in second bucket `s`
(`Math.floor(ev.time / 1000) == s`). -/
def densityBySec (events : List MEvent) (s : Int) : Bool :=
  events.any (fun e => decide (e.time.fdiv 1000 = s))

/-- Density enforcement (`Register Expansion & Density Enforcement`, part 1):
ensure every second bucket up to `targetDurationMs || planEnd` holds an
onset, inserting fillers at `s*1000 + 40`.  The seed pitch is
`noteNameToMidi(events[0].noteName) || 60` — note the JavaScript `||`, which
also replaces a parsed MIDI value of 0. -/
def densityPass (events : List MEvent) (target : Int) : List MEvent :=
  match events with
  | [] => []
  | e0 :: _ =>
    let endMs := if target ≠ 0 then target else planEnd events
    let seconds := max 1 (endMs.fdiv 1000)
    let lastMidi0 := if e0.note = 0 then 60 else e0.note
    let fillers := densityGo (densityBySec events) 0 seconds.toNat lastMidi0
    if fillers = [] then events else sortByTime (events ++ fillers)

/-- The register-expansion loop (part 2): when the pitch span is under an
octave, shift up to 8 events by an octave — up when `i % 3 == 1` (if it stays
at or under 84), else down when `i % 5 == 2` (if it stays at or above 48). -/
def expandGo : Nat → Nat → List MEvent → List MEvent
  | _, _, [] => []
  | i, expanded, e :: rest =>
    if 8 ≤ expanded then e :: rest
    else if i % 3 = 1 ∧ e.note + 12 ≤ 84 then
      {e with note := e.note + 12} :: expandGo (i + 1) (expanded + 1) rest
    else if ¬(i % 3 = 1 ∧ e.note + 12 ≤ 84) ∧ i % 5 = 2 ∧ 48 ≤ e.note - 12 then
      {e with note := e.note - 12} :: expandGo (i + 1) (expanded + 1) rest
    else e :: expandGo (i + 1) expanded rest

/-- Register expansion: applies `expandGo` when the plan's pitch range is
compressed below 12 semitones. -/
def expandPass (events : List MEvent) : List MEvent :=
  match events with
  | [] => []
  | e0 :: rest =>
    let midis := (e0 :: rest).map (fun e => e.note)
    let mn := midis.foldl min e0.note
    let mx := midis.foldl max e0.note
    if mx - mn < 12 then expandGo 0 0 (e0 :: rest) else e0 :: rest

/-- `choosePitch` of the coverage-enforcement block; the float expression
`(p+n+a)/3 + ((idx%4)-1.5)*2` equals `(p+n+a + 6*(idx%4) - 9)/3` exactly. -/
def choosePitch (anchor : Option MEvent) (idx : Nat) (prev next : Option MEvent) : Int :=
  let a := match anchor with | some x => x.note | none => 60
  let p := match prev with | some x => x.note | none => a
  let n := match next with | some x => x.note | none => a
  let avg := roundDiv (p + n + a + 6 * ((idx % 4 : Nat) : Int) - 9) 3
  min 96 (max 36 avg)

/-- Velocity of a coverage filler:
`Math.min(110, Math.max(45, (anchorPrev?.velocity ?? 72) + ((localIdx%3)-1)*7))`. -/
def gapVelocity (anchorPrev : Option MEvent) (idx : Nat) : Int :=
  min 110 (max 45
    ((match anchorPrev with | some x => x.velocity | none => 72) +
      (((idx % 3 : Nat) : Int) - 1) * 7))

/-- `last.duration += remaining` applied to the last element, if any. -/
def extendLast (r : Int) : List MEvent → List MEvent
  | [] => []
  | [e] => [{e with duration := e.duration + r}]
  | e :: rest => e :: extendLast r rest

/-- The `while` loop of `ensureGapFilled`: starting at `cursor`, push
canonical-duration fillers (largest of {2000,1000,500,250,125} that fits)
while more than 1 ms remains and the shared safety cap
`added.length < MAX_NEW = 120` holds; when no canonical duration fits, the
remainder is absorbed into the last inserted filler (if any) and the loop
stops.  The fuel argument is `120 - added.length` at entry: it only bounds
the recursion, the loop exits are the same tests as in the source. -/
def gapFillGo (endT : Int) (anchorPrev anchorNext : Option MEvent) :
    Int → Nat → List MEvent → Nat → List MEvent
  | _, _, added, 0 => added
  | cursor, idx, added, fuel + 1 =>
    if cursor < endT - 1 ∧ added.length < 120 then
      let remaining := endT - cursor
      match [2000, 1000, 500, 250, 125].find? (fun d => decide (d ≤ remaining)) with
      | none => extendLast remaining added
      | some dur =>
        gapFillGo endT anchorPrev anchorNext (cursor + dur) (idx + 1)
          (added ++ [⟨choosePitch anchorPrev idx anchorPrev anchorNext, cursor, dur,
            gapVelocity anchorPrev idx⟩]) fuel
    else added

/-- `ensureGapFilled(start, end, anchorPrev, anchorNext)` mutating the shared
`added` accumulator. -/
def ensureGapFilled (start endT : Int) (anchorPrev anchorNext : Option MEvent)
    (added : List MEvent) : List MEvent :=
  gapFillGo endT anchorPrev anchorNext start 0 added (120 - added.length)

/-- The walk over consecutive sorted events, filling every positive gap
between one event's end and the next event's start. -/
def gapLoop : List MEvent → List MEvent → List MEvent
  | added, cur :: next :: rest =>
    gapLoop
      (if cur.time + cur.duration < next.time then
        ensureGapFilled (cur.time + cur.duration) next.time (some cur) (some next) added
      else added)
      (next :: rest)
  | added, _ => added

/-- Continuous Coverage Enforcement: sort, fill all inter-event gaps, fill
the tail gap up to `targetDurationMs || planEnd`, then merge and re-sort. -/
def coveragePass (events : List MEvent) (target : Int) : List MEvent :=
  match events with
  | [] => []
  | _ :: _ =>
    let sorted := sortByTime events
    let targetEnd := if target ≠ 0 then target else planEnd sorted
    let added := gapLoop [] sorted
    let lastEnd := planEnd sorted
    let added2 :=
      if lastEnd < targetEnd then
        ensureGapFilled lastEnd targetEnd sorted.getLast? none added
      else added
    if added2 = [] then sorted else sortByTime (sorted ++ added2)

/-- `toNoteType` thresholds composed with the canonical snap used when
internal events are published (`publicEvents`): every duration is replaced by
the canonical value of its rhythmic category. -/
def toNoteTypeMs (ms : Int) : Int :=
  if ms < 190 then 125
  else if ms < 375 then 250
  else if ms < 750 then 500
  else if ms < 1500 then 1000
  else 2000

/-- The public-event mapping: times, pitches and velocities are kept and the
duration is snapped to its canonical category value. -/
def toPublic (l : List MEvent) : List MEvent :=
  l.map (fun e => {e with duration := toNoteTypeMs e.duration})

/-- Register-breadth injection for clips of at least 5 s: guarantee at least
4 events at or below MIDI 55 (G3) and 4 at or above 81 (A5), adding short
anchored notes at `src.time + 15` (low, 250 ms) and `src.time + 30` (high,
125 ms).  An empty plan raises inside the source's `try` block, leaving the
plan unchanged. -/
def breadthPass (l : List MEvent) (target : Int) : List MEvent :=
  match l with
  | [] => []
  | _ :: _ =>
    let endMs := if target ≠ 0 then target else planEnd l
    if endMs < 5000 then l
    else
      let lows := l.filter (fun e => decide (e.note ≤ 55))
      let highs := l.filter (fun e => decide (81 ≤ e.note))
      let needLow : Nat := 4 - lows.length
      let needHigh : Nat := 4 - highs.length
      if needLow = 0 ∧ needHigh = 0 then l
      else
        let anchors := sortByTime l
        let lowAdds := (List.range needLow).map fun i =>
          let src := anchors.getD ((i * 2) % anchors.length) default
          (⟨max 36 (min 55 (src.note - 24 + ((i % 4 : Nat) : Int) * 2)),
            src.time + 15, 250, min 100 (src.velocity + 4)⟩ : MEvent)
        let highAdds := (List.range needHigh).map fun i =>
          let src := anchors.getD ((i * 3 + 1) % anchors.length) default
          (⟨min 96 (max 81 (src.note + 24 - ((i % 3 : Nat) : Int) * 3)),
            src.time + 30, 125, min 108 (src.velocity + 6)⟩ : MEvent)
        sortByTime (l ++ lowAdds ++ highAdds)

/-- The deterministic tail of the Shaping Engine in source order: enrichment
overlap pruning, density enforcement, register expansion, continuous
coverage enforcement, publication (canonical durations), register-breadth
injection. -/
def shapingPipeline (l : List MEvent) (target : Int) : List MEvent :=
  breadthPass
    (toPublic (coveragePass (expandPass (densityPass (pruneOverlaps l) target)) target))
    target

/-! ## Temporal Scaler (`requestMusicalPlan`, re-scale and final scaling) -/

/-- The first rescale block (`Re-scale one final time …`): when a target is
given and the plan is non-empty with positive end, scale every start and
duration by `target / end`, flooring scaled durations at 120 ms. -/
def scalePass1 (target : Int) (l : List MEvent) : List MEvent :=
  if target ≠ 0 ∧ l ≠ [] then
    let endv := planEnd l
    if 0 < endv then
      l.map fun e =>
        {e with time := roundDiv (e.time * target) endv,
                duration := max 120 (roundDiv (e.duration * target) endv)}
    else l
  else l

/-- The rescale inside the second block: starts and durations scaled by
`target / end` with no duration floor (applied when the current end is
positive). -/
def scaleNoFloor (target : Int) (l : List MEvent) : List MEvent :=
  if 0 < planEnd l then
    l.map fun e =>
      {e with time := roundDiv (e.time * target) (planEnd l),
              duration := roundDiv (e.duration * target) (planEnd l)}
  else l

/-- The second block (`Scale to target precisely`): scale starts and
durations by `target / end` (no duration floor), then — when the resulting
end is under 96% of the target (`finalEnd < targetDurationMs * 0.96`) —
append one sustaining note `{C5, max(0, target - 1800), 1800, 75}`. -/
def scalePass2 (target : Int) (l : List MEvent) : List MEvent :=
  if target ≠ 0 ∧ l ≠ [] then
    if 100 * planEnd (scaleNoFloor target l) < 96 * target then
      scaleNoFloor target l ++ [⟨72, max 0 (target - 1800), 1800, 75⟩]
    else scaleNoFloor target l
  else l

/-- The Temporal Scaler as executed: the floored rescale followed by the
precise rescale with the 96% sustain fallback. -/
def temporalScaler (target : Int) (l : List MEvent) : List MEvent :=
  scalePass2 target (scalePass1 target l)

/-! ## WAV container (`synthesizePlanToWavBase64`) -/

/-- `DataView.setUint16(offset, v, true)`: two little-endian bytes of
`v mod 2^16`. -/
def u16le (v : Nat) : List Nat :=
  [v % 65536 % 256, v % 65536 / 256]

/-- `DataView.setUint32(offset, v, true)`: four little-endian bytes of
`v mod 2^32`. -/
def u32le (v : Nat) : List Nat :=
  [v % 4294967296 % 256, v % 4294967296 / 256 % 256,
   v % 4294967296 / 65536 % 256, v % 4294967296 / 16777216 % 256]

/-- Little-endian decoding of a 4-byte field. -/
def decodeU32le : List Nat → Nat
  | [b0, b1, b2, b3] => b0 + 256 * b1 + 65536 * b2 + 16777216 * b3
  | _ => 0

/-- `Math.ceil (a / b)` for integers with `b > 0`: `-((-a) fdiv b)`. -/
def ceilDiv (a b : Int) : Int := -((-a).fdiv b)

/-- `Math.max(targetDuration || 0, ...plan.events.map(e => e.time + e.duration))`. -/
def wavEndMs (l : List MEvent) (target : Int) : Int :=
  l.foldl (fun m e => max m (e.time + e.duration)) target

/-- `totalSamples = Math.max(1, Math.ceil((endMs / 1000) * 44100))`. -/
def totalSamples (l : List MEvent) (target : Int) : Nat :=
  (max 1 (ceilDiv (wavEndMs l target * 44100) 1000)).toNat

/-- The 44-byte WAV header written by `synthesizePlanToWavBase64`:
`RIFF` (bytes 82,73,70,70), RIFF size `36 + totalSamples*4`, `WAVE`
(87,65,86,69), `fmt ` (102,109,116,32), PCM chunk size 16, format 1,
2 channels, sample rate 44100, byte rate `44100*4`, block align 4,
16 bits per sample, `data` (100,97,116,97), data length `totalSamples*4`. -/
def wavHeader (ts : Nat) : List Nat :=
  [82, 73, 70, 70] ++ u32le (36 + ts * 4) ++
  [87, 65, 86, 69] ++ [102, 109, 116, 32] ++
  u32le 16 ++ u16le 1 ++ u16le 2 ++ u32le 44100 ++ u32le (44100 * 4) ++
  u16le 4 ++ u16le 16 ++ [100, 97, 116, 97] ++ u32le (ts * 4)

/-- The rendered WAV buffer: the header followed by the interleaved 16-bit
sample bytes.  The floating-point synthesis itself is not modelled; the
sample section is abstract, the header depends only on `totalSamples`. -/
def wavBytes (l : List MEvent) (target : Int) (sampleData : List Nat) : List Nat :=
  wavHeader (totalSamples l target) ++ sampleData

theorem decodeU32le_u32le (v : Nat) (hv : v < 4294967296) :
    decodeU32le (u32le v) = v := by
  simp only [decodeU32le, u32le]
  omega

set_option maxHeartbeats 1000000 in
/-- Claim C9: the WAV buffer begins with the ASCII bytes `RIFF`, has `WAVE`
at offset 8, carries `totalSamples * 4` (stereo 16-bit) in the little-endian
data-length field at offset 40, and `36 + totalSamples * 4` in the RIFF size
field at offset 4 — provided the byte counts fit the 32-bit fields. -/
theorem wavBytes_header_fields (l : List MEvent) (target : Int) (sd : List Nat)
    (h : 36 + totalSamples l target * 4 < 4294967296) :
    (wavBytes l target sd).take 4 = [82, 73, 70, 70] ∧
    ((wavBytes l target sd).drop 8).take 4 = [87, 65, 86, 69] ∧
    decodeU32le (((wavBytes l target sd).drop 40).take 4) = totalSamples l target * 4 ∧
    decodeU32le (((wavBytes l target sd).drop 4).take 4) = 36 + totalSamples l target * 4 := by
  refine ⟨rfl, rfl, ?_, ?_⟩
  · have hr : ((wavBytes l target sd).drop 40).take 4 = u32le (totalSamples l target * 4) := rfl
    rw [hr]
    exact decodeU32le_u32le _ (by omega)
  · have hr : ((wavBytes l target sd).drop 4).take 4 = u32le (36 + totalSamples l target * 4) := rfl
    rw [hr]
    exact decodeU32le_u32le _ h

/-- Witness for C9 on the empty plan (one silence sample). -/
theorem wavBytes_header_fields_witness :
    36 + totalSamples [] 0 * 4 < 4294967296 ∧
    (wavBytes [] 0 []).take 4 = [82, 73, 70, 70] ∧
    decodeU32le (((wavBytes [] 0 []).drop 40).take 4) = totalSamples [] 0 * 4 := by
  have h := wavBytes_header_fields [] 0 [] (by decide)
  exact ⟨by decide, h.1, h.2.2.1⟩

/-! ## Claim C1 — simultaneity after the Shaping Engine -/

theorem length_filter_mono {l : List MEvent} {p q : MEvent → Bool}
    (h : ∀ a ∈ l, p a = true → q a = true) :
    (l.filter p).length ≤ (l.filter q).length := by
  rw [← List.countP_eq_length_filter, ← List.countP_eq_length_filter]
  exact List.countP_mono_left h

theorem simulCount_append (l1 l2 : List MEvent) (t : Int) :
    simulCount (l1 ++ l2) t = simulCount l1 t + simulCount l2 t := by
  simp [simulCount, List.filter_append]


theorem pruneGo_simul_le (rest : List MEvent) :
    ∀ pruned : List MEvent, (∀ t, simulCount pruned t ≤ 3) →
      ∀ t, simulCount (pruneGo pruned rest) t ≤ 3 := by
  induction rest with
  | nil => intro pruned h t; simpa [pruneGo] using h t
  | cons e rest ih =>
    intro pruned h t
    by_cases hc : 3 ≤ (pruned.filter (fun p => overlapsB p e)).length
    · simp only [pruneGo]
      rw [if_pos hc]
      exact ih pruned h t
    · have hinv : ∀ u, simulCount (pruned ++ [e]) u ≤ 3 := by
        intro u
        rw [simulCount_append]
        by_cases hcov : (decide (e.time ≤ u) && decide (u < e.time + e.duration)) = true
        · have hmono : simulCount pruned u ≤
              (pruned.filter (fun p => overlapsB p e)).length := by
            apply length_filter_mono
            intro a _ ha
            simp only [Bool.and_eq_true, decide_eq_true_eq] at ha hcov
            simp only [overlapsB, Bool.not_eq_true', Bool.or_eq_false_iff,
              decide_eq_false_iff_not]
            omega
          have h1 : simulCount [e] u ≤ 1 := by
            simp only [simulCount, List.filter_cons, List.filter_nil]
            split <;> simp
          omega
        · have h0 : simulCount [e] u = 0 := by
            simp only [simulCount, List.filter_cons, List.filter_nil, hcov]
            rfl
          have := h u
          omega
      simp only [pruneGo]
      rw [if_neg hc]
      by_cases hlen : 80 ≤ (pruned ++ [e]).length
      · rw [if_pos hlen]
        exact hinv t
      · rw [if_neg hlen]
        exact ih (pruned ++ [e]) hinv t

/-- Claim C1 (amended): the enrichment pruning step bounds simultaneity by 3,
not 2 — an event is kept whenever fewer than 3 already-kept events overlap
it, so at no instant do more than 3 pruned events sound at once.  The later
coverage-filling and register-breadth passes add events without re-pruning,
so the output of the full pipeline keeps no 2-voice bound (see the
counterexample). -/
theorem pruneOverlaps_simul_le_three :
    ∀ (l : List MEvent) (t : Int), simulCount (pruneOverlaps l) t ≤ 3 := by
  intro l t
  exact pruneGo_simul_le (sortByTimeNote l) [] (fun u => by simp [simulCount]) t

/-- Counterexample to C1 as stated: three simultaneous whole notes survive
pruning (only a fourth would be dropped) and pass unchanged through the rest
of the Shaping Engine, so the finished plan sounds 3 events at t = 0. -/
theorem shapingPipeline_three_simultaneous :
    simulCount
      (shapingPipeline [⟨60, 0, 2000, 80⟩, ⟨64, 0, 2000, 80⟩, ⟨67, 0, 2000, 80⟩] 2000)
      0 = 3 := by
  decide

/-! ## Claim C2 — onset density after the Shaping Engine -/

theorem mem_insertByTime (a e : MEvent) :
    ∀ l : List MEvent, a ∈ insertByTime e l ↔ a = e ∨ a ∈ l := by
  intro l
  induction l with
  | nil => simp [insertByTime]
  | cons x xs ih =>
    simp only [insertByTime]
    split
    all_goals simp only [List.mem_cons, ih]
    all_goals tauto

theorem mem_sortByTime (a : MEvent) :
    ∀ l : List MEvent, a ∈ sortByTime l ↔ a ∈ l := by
  intro l
  induction l with
  | nil => simp [sortByTime]
  | cons x xs ih =>
    show a ∈ insertByTime x (sortByTime xs) ↔ _
    rw [mem_insertByTime]
    simp only [List.mem_cons, ih]

theorem length_insertByTimeNote (e : MEvent) :
    ∀ l : List MEvent, (insertByTimeNote e l).length = l.length + 1 := by
  intro l
  induction l with
  | nil => simp [insertByTimeNote]
  | cons x xs ih =>
    simp only [insertByTimeNote]
    split <;> simp [ih]

theorem length_sortByTimeNote (l : List MEvent) :
    (sortByTimeNote l).length = l.length := by
  induction l with
  | nil => rfl
  | cons x xs ih =>
    show (insertByTimeNote x (sortByTimeNote xs)).length = _
    rw [length_insertByTimeNote, ih, List.length_cons]

theorem pruneGo_length_le (rest : List MEvent) :
    ∀ pruned : List MEvent, pruned.length ≤ (pruneGo pruned rest).length := by
  induction rest with
  | nil => intro pruned; simp [pruneGo]
  | cons e rest ih =>
    intro pruned
    simp only [pruneGo]
    split
    · exact ih pruned
    · split
      · simp
      · calc pruned.length ≤ (pruned ++ [e]).length := by simp
          _ ≤ _ := ih _

theorem pruneOverlaps_ne_nil (l : List MEvent) (h : l ≠ []) :
    pruneOverlaps l ≠ [] := by
  rw [pruneOverlaps]
  cases hs : sortByTimeNote l with
  | nil =>
    exfalso
    have hlen := length_sortByTimeNote l
    rw [hs] at hlen
    exact h (List.eq_nil_of_length_eq_zero hlen.symm)
  | cons e rest =>
    simp only [pruneGo, List.nil_append]
    rw [if_neg (by simp)]
    split
    · simp
    · intro hc
      have hl := pruneGo_length_le rest [e]
      rw [hc] at hl
      simp at hl

theorem densityGo_covers (bySec : Int → Bool) :
    ∀ (rem : Nat) (s lm k : Int), s ≤ k → k < s + (rem : Int) → bySec k = false →
      ∃ f ∈ densityGo bySec s rem lm, f.time = k * 1000 + 40 := by
  intro rem
  induction rem with
  | zero => intro s lm k h1 h2 _; exact absurd h2 (by push_cast; omega)
  | succ n ih =>
    intro s lm k h1 h2 hk
    simp only [densityGo]
    by_cases hb : bySec s = true
    · rw [if_pos hb]
      have hne : s ≠ k := fun hske => by rw [hske, hk] at hb; cases hb
      exact ih (s + 1) lm k (by omega) (by push_cast at h2 ⊢; omega) hk
    · rw [if_neg hb]
      by_cases hks : k = s
      · subst hks
        exact ⟨_, List.mem_cons_self _ _, rfl⟩
      · obtain ⟨f, hf, htf⟩ :=
          ih (s + 1) (densityStepMidi lm s) k (by omega) (by push_cast at h2 ⊢; omega) hk
        exact ⟨f, List.mem_cons_of_mem _ hf, htf⟩

theorem densityPass_covers (events : List MEvent) (target : Int) (k : Int)
    (hne : events ≠ []) (ht : 0 < target) (hk0 : 0 ≤ k)
    (hk : k < max 1 (target.fdiv 1000)) :
    ∃ e ∈ densityPass events target, e.time.fdiv 1000 = k := by
  obtain ⟨e0, rest, rfl⟩ := List.exists_cons_of_ne_nil hne
  have hdp : densityPass (e0 :: rest) target =
      if densityGo (densityBySec (e0 :: rest)) 0 (max 1 (target.fdiv 1000)).toNat
          (if e0.note = 0 then 60 else e0.note) = [] then e0 :: rest
      else
        sortByTime ((e0 :: rest) ++
          densityGo (densityBySec (e0 :: rest)) 0 (max 1 (target.fdiv 1000)).toNat
            (if e0.note = 0 then 60 else e0.note)) := by
    simp only [densityPass]
    rw [if_pos ht.ne']
  rw [hdp]
  by_cases hnil : densityGo (densityBySec (e0 :: rest)) 0 (max 1 (target.fdiv 1000)).toNat
      (if e0.note = 0 then 60 else e0.note) = []
  · rw [if_pos hnil]
    by_cases hb : densityBySec (e0 :: rest) k = true
    · obtain ⟨e, he, hfe⟩ := by
        simpa only [densityBySec, List.any_eq_true, decide_eq_true_eq] using hb
      exact ⟨e, he, hfe⟩
    · exfalso
      have hb2 : densityBySec (e0 :: rest) k = false := by
        rwa [Bool.not_eq_true] at hb
      obtain ⟨f, hf, _⟩ :=
        densityGo_covers (densityBySec (e0 :: rest)) (max 1 (target.fdiv 1000)).toNat 0
          (if e0.note = 0 then 60 else e0.note) k hk0
          (by rw [Int.toNat_of_nonneg (by omega : (0 : Int) ≤ max 1 (target.fdiv 1000))]
              omega) hb2
      rw [hnil] at hf
      cases hf
  · rw [if_neg hnil]
    by_cases hb : densityBySec (e0 :: rest) k = true
    · obtain ⟨e, he, hfe⟩ := by
        simpa only [densityBySec, List.any_eq_true, decide_eq_true_eq] using hb
      exact ⟨e, (mem_sortByTime e _).mpr (List.mem_append_left _ he), hfe⟩
    · have hb2 : densityBySec (e0 :: rest) k = false := by
        rwa [Bool.not_eq_true] at hb
      obtain ⟨f, hf, htf⟩ :=
        densityGo_covers (densityBySec (e0 :: rest)) (max 1 (target.fdiv 1000)).toNat 0
          (if e0.note = 0 then 60 else e0.note) k hk0
          (by rw [Int.toNat_of_nonneg (by omega : (0 : Int) ≤ max 1 (target.fdiv 1000))]
              omega) hb2
      have hfd : f.time.fdiv 1000 = k := by
        rw [htf, Int.fdiv_eq_ediv _ (by omega)]
        omega
      exact ⟨f, (mem_sortByTime f _).mpr (List.mem_append_right _ hf), hfd⟩

theorem expandGo_map_time :
    ∀ (l : List MEvent) (i ex : Nat),
      (expandGo i ex l).map (fun e => e.time) = l.map (fun e => e.time) := by
  intro l
  induction l with
  | nil => intro i ex; simp [expandGo]
  | cons e rest ih =>
    intro i ex
    simp only [expandGo]
    split
    · rfl
    · split
      · simp only [List.map_cons, ih]
      · split
        · simp only [List.map_cons, ih]
        · simp only [List.map_cons, ih]

theorem expandPass_map_time (l : List MEvent) :
    (expandPass l).map (fun e => e.time) = l.map (fun e => e.time) := by
  cases l with
  | nil => rfl
  | cons e rest =>
    simp only [expandPass]
    split
    · exact expandGo_map_time _ 0 0
    · rfl

theorem exists_time_of_map_time {l l2 : List MEvent}
    (hmap : l2.map (fun e => e.time) = l.map (fun e => e.time))
    {e : MEvent} (he : e ∈ l) : ∃ e2 ∈ l2, e2.time = e.time := by
  have hm : e.time ∈ l.map (fun e => e.time) := List.mem_map_of_mem _ he
  rw [← hmap] at hm
  obtain ⟨e2, he2, htt⟩ := List.mem_map.mp hm
  exact ⟨e2, he2, htt⟩

theorem coveragePass_mem (events : List MEvent) (target : Int) (e : MEvent)
    (he : e ∈ events) : e ∈ coveragePass events target := by
  cases events with
  | nil => cases he
  | cons e0 rest =>
    simp only [coveragePass]
    repeat' split
    all_goals
      first
        | exact (mem_sortByTime e _).mpr he
        | exact (mem_sortByTime e _).mpr
            (List.mem_append_left _ ((mem_sortByTime e _).mpr he))

theorem toPublic_map_time (l : List MEvent) :
    (toPublic l).map (fun e => e.time) = l.map (fun e => e.time) := by
  rw [toPublic, List.map_map]
  rfl

theorem breadthPass_mem (l : List MEvent) (target : Int) (e : MEvent)
    (he : e ∈ l) : e ∈ breadthPass l target := by
  cases l with
  | nil => cases he
  | cons e0 rest =>
    simp only [breadthPass]
    repeat' split
    all_goals
      first
        | exact he
        | exact (mem_sortByTime e _).mpr
            (List.mem_append_left _ (List.mem_append_left _ he))

/-- Claim C2 (amended): after the Shaping Engine, every aligned second bucket
`[k*1000, (k+1)*1000)` with `k < max 1 ⌊target/1000⌋` contains at least one
event onset (the density pass inserts a filler at `k*1000 + 40` into every
empty bucket, and the later passes only add events or change pitches and
durations).  Rolling 1-second windows are not covered: a filler placed 40 ms
into its bucket leaves windows such as `[t, t+1000]` with `0 < t < 40`
without an onset — see the counterexample. -/
theorem shapingPipeline_bucket_onsets (l : List MEvent) (target : Int) (k : Int)
    (hne : l ≠ []) (ht : 0 < target) (hk0 : 0 ≤ k)
    (hk : k < max 1 (target.fdiv 1000)) :
    ∃ e ∈ shapingPipeline l target, e.time.fdiv 1000 = k := by
  have hp : pruneOverlaps l ≠ [] := pruneOverlaps_ne_nil l hne
  obtain ⟨e1, he1, ht1⟩ := densityPass_covers (pruneOverlaps l) target k hp ht hk0 hk
  obtain ⟨e2, he2, ht2⟩ := exists_time_of_map_time (expandPass_map_time _) he1
  have he3 := coveragePass_mem _ target e2 he2
  obtain ⟨e4, he4, ht4⟩ := exists_time_of_map_time (toPublic_map_time _) he3
  have he5 := breadthPass_mem _ target e4 he4
  exact ⟨e4, he5, by rw [ht4, ht2, ht1]⟩

/-- Witness for C2 (amended) at a one-note plan with a 3-second target:
bucket 1 receives an onset. -/
theorem shapingPipeline_bucket_onsets_witness :
    (([⟨60, 0, 500, 80⟩] : List MEvent) ≠ [] ∧ (0 : Int) < 3000 ∧ (0 : Int) ≤ 1 ∧
      (1 : Int) < max 1 ((3000 : Int).fdiv 1000)) ∧
    ∃ e ∈ shapingPipeline [⟨60, 0, 500, 80⟩] 3000, e.time.fdiv 1000 = 1 := by
  exact ⟨by decide,
    shapingPipeline_bucket_onsets [⟨60, 0, 500, 80⟩] 3000 1 (by decide) (by decide)
      (by decide) (by decide)⟩

/-- Counterexample to C2 as stated: for the single whole note with target
2000 ms the finished plan's onsets are exactly 0 and 1040 (the density filler
sits 40 ms into its bucket), so the rolling window [20, 1020] — contained in
[0, totalDuration] because the plan ends at 2000 — contains no onset. -/
theorem shapingPipeline_rolling_window_gap :
    planEnd (shapingPipeline [⟨60, 0, 2000, 80⟩] 2000) = 2000 ∧
    (shapingPipeline [⟨60, 0, 2000, 80⟩] 2000).countP
      (fun e => decide (20 ≤ e.time) && decide (e.time ≤ 1020)) = 0 := by
  constructor <;> decide

/-! ## Claim C6 — coverage filler for an exact 500 ms gap -/

theorem gapFillGo_exact_500 (S : Int) (ap an : Option MEvent) (added : List MEvent)
    (fuel : Nat) (hfuel : 0 < fuel) (hcap : added.length < 120) :
    gapFillGo (S + 500) ap an S 0 added fuel =
      added ++ [⟨choosePitch ap 0 ap an, S, 500, gapVelocity ap 0⟩] := by
  obtain ⟨k, rfl⟩ : ∃ k, fuel = k + 1 := ⟨fuel - 1, by omega⟩
  simp only [gapFillGo]
  rw [if_pos (⟨by omega, hcap⟩ : S < S + 500 - 1 ∧ added.length < 120)]
  simp only [show S + 500 - S = (500 : Int) from by omega]
  rw [show List.find? (fun d => decide (d ≤ (500 : Int))) [2000, 1000, 500, 250, 125] =
    some 500 from rfl]
  cases k with
  | zero => rfl
  | succ k =>
    simp only [gapFillGo]
    rw [if_neg (fun hcontra => absurd hcontra.1 (by omega))]

/-- Claim C6 (amended): for adjacent events whose gap is exactly 500 ms,
Coverage Enforcement inserts exactly one filler whose start is the first
event's end and whose end (start + 500) is the second event's start —
provided the pass's shared safety cap of 120 inserted fillers has not been
reached yet; once 120 fillers have accumulated, no filler is inserted (see
the counterexample). -/
theorem ensureGapFilled_exact_500 (cur next : MEvent) (added : List MEvent)
    (hcap : added.length < 120)
    (hgap : next.time = cur.time + cur.duration + 500) :
    ensureGapFilled (cur.time + cur.duration) next.time (some cur) (some next) added =
      added ++ [⟨choosePitch (some cur) 0 (some cur) (some next),
        cur.time + cur.duration, 500, gapVelocity (some cur) 0⟩] ∧
    cur.time + cur.duration + 500 = next.time := by
  refine ⟨?_, hgap.symm⟩
  rw [ensureGapFilled, hgap]
  exact gapFillGo_exact_500 _ _ _ _ _ (by omega) hcap

/-- Witness for C6 (amended): a quarter note at 0 and a next event at
1000 ms leave an exact 500 ms gap; one filler `[500, 1000)` is inserted. -/
theorem ensureGapFilled_exact_500_witness :
    (([] : List MEvent).length < 120 ∧
      (⟨62, 1000, 250, 70⟩ : MEvent).time =
        (⟨60, 0, 500, 80⟩ : MEvent).time + (⟨60, 0, 500, 80⟩ : MEvent).duration + 500) ∧
    ensureGapFilled ((⟨60, 0, 500, 80⟩ : MEvent).time + (⟨60, 0, 500, 80⟩ : MEvent).duration)
        (⟨62, 1000, 250, 70⟩ : MEvent).time
        (some ⟨60, 0, 500, 80⟩) (some ⟨62, 1000, 250, 70⟩) [] =
      [] ++ [⟨choosePitch (some ⟨60, 0, 500, 80⟩) 0 (some ⟨60, 0, 500, 80⟩)
          (some ⟨62, 1000, 250, 70⟩),
        (⟨60, 0, 500, 80⟩ : MEvent).time + (⟨60, 0, 500, 80⟩ : MEvent).duration, 500,
        gapVelocity (some ⟨60, 0, 500, 80⟩) 0⟩] := by
  exact ⟨⟨by decide, by decide⟩,
    (ensureGapFilled_exact_500 ⟨60, 0, 500, 80⟩ ⟨62, 1000, 250, 70⟩ [] (by decide)
      (by decide)).1⟩

set_option maxRecDepth 40000 in
/-- Counterexample to C6 as stated: 122 notes of 500 ms starting at the
second boundaries leave 121 exact 500 ms gaps.  The first 120 receive one
filler each, then the `MAX_NEW = 120` safety cap stops the pass, so the last
gap — between the events at 120000 and 121000, filler start 120500 — gets no
filler, while the structurally identical first gap (filler start 500) got
exactly one. -/
theorem coveragePass_cap_leaves_gap :
    (coveragePass ((List.range 122).map fun i => ⟨60, (i : Int) * 1000, 500, 80⟩) 0).countP
        (fun e => decide (e.time = 120500)) = 0 ∧
    (coveragePass ((List.range 122).map fun i => ⟨60, (i : Int) * 1000, 500, 80⟩) 0).countP
        (fun e => decide (e.time = 500)) = 1 := by
  constructor <;> decide

/-! ## Claim C7 — the 96% sustain fallback of the precise rescale -/

theorem planEnd_append_singleton (l : List MEvent) (x : MEvent) :
    planEnd (l ++ [x]) = max (planEnd l) (x.time + x.duration) := by
  rw [planEnd, planEnd, List.foldl_append]
  rfl

/-- Claim C7 (amended): whenever the plan end after the precise rescale is
strictly below 96% of the target D, exactly one sustaining note is appended —
but its duration is 1800 ms (not 2000) and it starts at `max(0, D - 1800)`;
its end, and the resulting plan end, equal D whenever D ≥ 1800. -/
theorem scalePass2_short_appends (target : Int) (l : List MEvent)
    (ht : target ≠ 0) (hl : l ≠ [])
    (hshort : 100 * planEnd (scaleNoFloor target l) < 96 * target) :
    scalePass2 target l =
      scaleNoFloor target l ++ [⟨72, max 0 (target - 1800), 1800, 75⟩] ∧
    (1800 ≤ target → planEnd (scalePass2 target l) = target) := by
  have heq : scalePass2 target l =
      scaleNoFloor target l ++ [⟨72, max 0 (target - 1800), 1800, 75⟩] := by
    rw [scalePass2, if_pos ⟨ht, hl⟩, if_pos hshort]
  refine ⟨heq, fun h18 => ?_⟩
  rw [heq, planEnd_append_singleton]
  have hend : max 0 (target - 1800) + 1800 = target := by omega
  rw [hend]
  omega

/-- Witness for C7 (amended) on a degenerate zero-length plan with a 10 s
target: the shortfall branch fires and appends the 1800 ms note ending at
10000. -/
theorem scalePass2_short_appends_witness :
    ((10000 : Int) ≠ 0 ∧ ([⟨60, 0, 0, 80⟩] : List MEvent) ≠ [] ∧
      100 * planEnd (scaleNoFloor 10000 [⟨60, 0, 0, 80⟩]) < 96 * 10000) ∧
    scalePass2 10000 [⟨60, 0, 0, 80⟩] =
      scaleNoFloor 10000 [⟨60, 0, 0, 80⟩] ++ [⟨72, max 0 (10000 - 1800), 1800, 75⟩] ∧
    planEnd (scalePass2 10000 [⟨60, 0, 0, 80⟩]) = 10000 := by
  have h := scalePass2_short_appends 10000 [⟨60, 0, 0, 80⟩] (by decide) (by decide) (by decide)
  exact ⟨⟨by decide, by decide, by decide⟩, h.1, h.2 (by decide)⟩

/-- Counterexample to C7 as stated: when the shortfall branch fires, the
appended sustaining note has duration 1800 ms, not 2000 ms — the finished
plan contains no event of duration 2000. -/
theorem scalePass2_appended_duration_not_2000 :
    scalePass2 10000 [⟨60, 0, 0, 80⟩] = [⟨60, 0, 0, 80⟩, ⟨72, 8200, 1800, 75⟩] ∧
    (scalePass2 10000 [⟨60, 0, 0, 80⟩]).countP (fun e => decide (e.duration = 2000)) = 0 := by
  constructor <;> decide

/-! ## Claim C8 — idempotence of the floored rescale -/

theorem map_eq_self_of_eq {l : List MEvent} {f : MEvent → MEvent}
    (h : ∀ e ∈ l, f e = e) : l.map f = l := by
  induction l with
  | nil => rfl
  | cons x xs ih =>
    rw [List.map_cons, h x (List.mem_cons_self x xs),
      ih (fun e he => h e (List.mem_cons_of_mem x he))]

theorem roundDiv_mul_self (x D : Int) (hD : 0 < D) : roundDiv (x * D) D = x := by
  rw [roundDiv, Int.fdiv_eq_ediv _ (by omega)]
  have h1 : 2 * (x * D) + D = D + 2 * D * x := by ring
  rw [h1, Int.add_mul_ediv_left D x (by omega : (2 : Int) * D ≠ 0),
    Int.ediv_eq_zero_of_lt (by omega) (by omega)]
  omega

/-- Claim C8 (amended): the floored rescale is idempotent exactly on plans
it lands precisely on the target: when one application yields plan end `D`,
a second application is the identity.  In general it is not idempotent: the
120 ms duration floor can push the end past `D`, so the second application
rescales again (see the counterexample). -/
theorem scalePass1_idempotent_of_exact (D : Int) (l : List MEvent) (hD : 0 < D)
    (h : planEnd (scalePass1 D l) = D) :
    scalePass1 D (scalePass1 D l) = scalePass1 D l := by
  by_cases hl : l = []
  · subst hl
    rw [show scalePass1 D [] = [] from by simp [scalePass1]] at h ⊢
    rw [show planEnd [] = 0 from rfl] at h
    omega
  · by_cases hpe : 0 < planEnd l
    · have hl1 : scalePass1 D l =
          l.map fun e =>
            {e with time := roundDiv (e.time * D) (planEnd l),
                    duration := max 120 (roundDiv (e.duration * D) (planEnd l))} := by
        rw [scalePass1, if_pos ⟨by omega, hl⟩, if_pos hpe]
      have hdur : ∀ e ∈ scalePass1 D l, 120 ≤ e.duration := by
        intro e he
        rw [hl1] at he
        obtain ⟨a, _, rfl⟩ := List.mem_map.mp he
        simp only [le_max_iff]
        left
        rfl
      have hne1 : scalePass1 D l ≠ [] := by
        rw [hl1]
        simpa using hl
      rw [scalePass1, if_pos ⟨by omega, hne1⟩, if_pos (show 0 < planEnd (scalePass1 D l) from by rw [h]; exact hD)]
      rw [h]
      apply map_eq_self_of_eq
      intro e he
      rw [roundDiv_mul_self e.time D hD, roundDiv_mul_self e.duration D hD,
        max_eq_right (hdur e he)]
    · exfalso
      have : scalePass1 D l = l := by
        rw [scalePass1, if_pos ⟨by omega, hl⟩, if_neg hpe]
      rw [this] at h
      omega

/-- Witness for C8 (amended): scaling `[{60, 0, 100, 80}]` to 1000 lands the
end exactly on 1000, and a second application changes nothing. -/
theorem scalePass1_idempotent_of_exact_witness :
    ((0 : Int) < 1000 ∧ planEnd (scalePass1 1000 [⟨60, 0, 100, 80⟩]) = 1000) ∧
    scalePass1 1000 (scalePass1 1000 [⟨60, 0, 100, 80⟩]) =
      scalePass1 1000 [⟨60, 0, 100, 80⟩] := by
  exact ⟨⟨by decide, by decide⟩,
    scalePass1_idempotent_of_exact 1000 [⟨60, 0, 100, 80⟩] (by decide) (by decide)⟩

/-- Counterexample to C8 as stated: for `[{0,1000},{990,10}]` and target
1000, the first application floors the short note to 120 ms (end 1110 ≠
1000), so the second application rescales by 1000/1110 and produces a
different plan. -/
theorem scalePass1_not_idempotent :
    scalePass1 1000 (scalePass1 1000 [⟨60, 0, 1000, 80⟩, ⟨62, 990, 10, 80⟩]) ≠
      scalePass1 1000 [⟨60, 0, 1000, 80⟩, ⟨62, 990, 10, 80⟩] := by
  decide

/-! ## Claim C3 — the Temporal Scaler lands within 4% of the target -/

theorem foldl_max_ge_init :
    ∀ (l : List MEvent) (a : Int),
      a ≤ l.foldl (fun m e => max m (e.time + e.duration)) a := by
  intro l
  induction l with
  | nil => intro a; exact le_refl a
  | cons x xs ih =>
    intro a
    simp only [List.foldl_cons]
    calc a ≤ max a (x.time + x.duration) := le_max_left _ _
      _ ≤ _ := ih _

theorem foldl_max_ge_mem :
    ∀ (l : List MEvent) (a : Int) (e : MEvent), e ∈ l →
      e.time + e.duration ≤ l.foldl (fun m e => max m (e.time + e.duration)) a := by
  intro l
  induction l with
  | nil => intro a e he; cases he
  | cons x xs ih =>
    intro a e he
    simp only [List.foldl_cons]
    rcases List.mem_cons.mp he with rfl | hxs
    · calc e.time + e.duration ≤ max a (e.time + e.duration) := le_max_right _ _
        _ ≤ _ := foldl_max_ge_init xs _
    · exact ih _ e hxs

theorem foldl_max_le :
    ∀ (l : List MEvent) (a B : Int), a ≤ B →
      (∀ e ∈ l, e.time + e.duration ≤ B) →
      l.foldl (fun m e => max m (e.time + e.duration)) a ≤ B := by
  intro l
  induction l with
  | nil => intro a B ha _; exact ha
  | cons x xs ih =>
    intro a B ha hm
    simp only [List.foldl_cons]
    refine ih _ B ?_ (fun e he => hm e (List.mem_cons_of_mem x he))
    have := hm x (List.mem_cons_self x xs)
    omega

theorem foldl_max_attained :
    ∀ (l : List MEvent) (a : Int),
      l.foldl (fun m e => max m (e.time + e.duration)) a = a ∨
      ∃ e ∈ l, l.foldl (fun m e => max m (e.time + e.duration)) a =
        e.time + e.duration := by
  intro l
  induction l with
  | nil => intro a; exact Or.inl rfl
  | cons x xs ih =>
    intro a
    simp only [List.foldl_cons]
    rcases ih (max a (x.time + x.duration)) with heq | ⟨e, he, heq⟩
    · rw [heq]
      rcases max_cases a (x.time + x.duration) with ⟨h1, _⟩ | ⟨h1, _⟩
      · exact Or.inl h1
      · exact Or.inr ⟨x, List.mem_cons_self x xs, h1⟩
    · exact Or.inr ⟨e, List.mem_cons_of_mem x he, heq⟩

theorem planEnd_ge_mem {l : List MEvent} {e : MEvent} (he : e ∈ l) :
    e.time + e.duration ≤ planEnd l := foldl_max_ge_mem l 0 e he

theorem planEnd_le {l : List MEvent} {B : Int} (hB : 0 ≤ B)
    (h : ∀ e ∈ l, e.time + e.duration ≤ B) : planEnd l ≤ B := foldl_max_le l 0 B hB h

theorem planEnd_attained {l : List MEvent} (h : 0 < planEnd l) :
    ∃ e ∈ l, e.time + e.duration = planEnd l := by
  rcases foldl_max_attained l 0 with heq | ⟨e, he, heq⟩
  · exfalso
    rw [planEnd] at h
    omega
  · exact ⟨e, he, heq.symm⟩

theorem roundDiv_le_q (a b : Int) (hb : 0 < b) :
    ((roundDiv a b : Int) : ℚ) ≤ (a : ℚ) / (b : ℚ) + 1 / 2 := by
  rw [roundDiv_eq_floor a b hb]
  exact Int.floor_le _

theorem roundDiv_gt_q (a b : Int) (hb : 0 < b) :
    (a : ℚ) / (b : ℚ) - 1 / 2 < ((roundDiv a b : Int) : ℚ) := by
  rw [roundDiv_eq_floor a b hb]
  have := Int.lt_floor_add_one ((a : ℚ) / (b : ℚ) + 1 / 2)
  linarith

theorem roundDiv_nonneg {a b : Int} (ha : 0 ≤ a) (hb : 0 < b) : 0 ≤ roundDiv a b :=
  Int.fdiv_nonneg (by omega) (by omega)

theorem scaled_sum_le (t d D E : Int) (hE : 0 < E) (hD : 0 ≤ D) (hle : t + d ≤ E) :
    roundDiv (t * D) E + roundDiv (d * D) E ≤ D + 1 := by
  have h1 := roundDiv_le_q (t * D) E hE
  have h2 := roundDiv_le_q (d * D) E hE
  have hEq : (0 : ℚ) < (E : ℚ) := by exact_mod_cast hE
  have hDq : (0 : ℚ) ≤ (D : ℚ) := by exact_mod_cast hD
  have hleq : (t : ℚ) + (d : ℚ) ≤ (E : ℚ) := by exact_mod_cast hle
  have hkey : ((t * D : Int) : ℚ) / E + ((d * D : Int) : ℚ) / E ≤ D := by
    push_cast
    rw [div_add_div_same, div_le_iff₀ hEq]
    nlinarith
  have hq : ((roundDiv (t * D) E + roundDiv (d * D) E : Int) : ℚ) ≤ (D : ℚ) + 1 := by
    push_cast at h1 h2 hkey ⊢
    linarith
  exact_mod_cast hq

theorem scaled_sum_ge (t d D E : Int) (hE : 0 < E) (heq : t + d = E) :
    D ≤ roundDiv (t * D) E + roundDiv (d * D) E := by
  have h1 := roundDiv_gt_q (t * D) E hE
  have h2 := roundDiv_gt_q (d * D) E hE
  have hEq : (0 : ℚ) < (E : ℚ) := by exact_mod_cast hE
  have heqq : (t : ℚ) + (d : ℚ) = (E : ℚ) := by exact_mod_cast heq
  have hkey : ((t * D : Int) : ℚ) / E + ((d * D : Int) : ℚ) / E = D := by
    push_cast
    rw [div_add_div_same, div_eq_iff hEq.ne']
    linear_combination (D : ℚ) * heqq
  have hsum : (D : Int) - 1 < roundDiv (t * D) E + roundDiv (d * D) E := by
    have hq : (D : ℚ) - 1 < ((roundDiv (t * D) E + roundDiv (d * D) E : Int) : ℚ) := by
      push_cast at h1 h2 hkey ⊢
      linarith
    exact_mod_cast hq
  omega

/-- Claim C3 (amended): for every non-empty plan with non-negative start
times and positive end, and every target `D ≥ 25` ms, the Temporal Scaler's
final plan end lies in `[D, D+1]` — in particular within 4% of `D`, and the
96%-shortfall branch never fires.  The claim fails only for targets below
25 ms, where the +1 ms rounding exceeds the 4% band (see the
counterexample with `D = 24`). -/
theorem temporalScaler_within_four_percent (l : List MEvent) (D : Int)
    (hD : 25 ≤ D) (hl : l ≠ []) (hnn : ∀ e ∈ l, 0 ≤ e.time) (hpe : 0 < planEnd l) :
    D ≤ planEnd (temporalScaler D l) ∧ planEnd (temporalScaler D l) ≤ D + 1 ∧
    96 * D ≤ 100 * planEnd (temporalScaler D l) ∧
    100 * planEnd (temporalScaler D l) ≤ 104 * D := by
  have hl1eq : scalePass1 D l =
      l.map fun e =>
        {e with time := roundDiv (e.time * D) (planEnd l),
                duration := max 120 (roundDiv (e.duration * D) (planEnd l))} := by
    rw [scalePass1, if_pos ⟨by omega, hl⟩, if_pos hpe]
  have hne1 : scalePass1 D l ≠ [] := by
    rw [hl1eq]
    simpa using hl
  have hdur1 : ∀ e ∈ scalePass1 D l, 120 ≤ e.duration := by
    intro e he
    rw [hl1eq] at he
    obtain ⟨a, _, rfl⟩ := List.mem_map.mp he
    exact le_max_left _ _
  have htime1 : ∀ e ∈ scalePass1 D l, 0 ≤ e.time := by
    intro e he
    rw [hl1eq] at he
    obtain ⟨a, ha, rfl⟩ := List.mem_map.mp he
    exact roundDiv_nonneg (mul_nonneg (hnn a ha) (by omega)) hpe
  have hE1 : 120 ≤ planEnd (scalePass1 D l) := by
    obtain ⟨e0, rest, hcons⟩ := List.exists_cons_of_ne_nil hne1
    have he0 : e0 ∈ scalePass1 D l := by
      rw [hcons]
      exact List.mem_cons_self _ _
    have hm := planEnd_ge_mem he0
    have h1 := htime1 e0 he0
    have h2 := hdur1 e0 he0
    omega
  have hE1pos : 0 < planEnd (scalePass1 D l) := by omega
  have hl2eq : scaleNoFloor D (scalePass1 D l) =
      (scalePass1 D l).map fun e =>
        {e with time := roundDiv (e.time * D) (planEnd (scalePass1 D l)),
                duration := roundDiv (e.duration * D) (planEnd (scalePass1 D l))} := by
    rw [scaleNoFloor, if_pos hE1pos]
  have hub : planEnd (scaleNoFloor D (scalePass1 D l)) ≤ D + 1 := by
    apply planEnd_le (by omega)
    intro e he
    rw [hl2eq] at he
    obtain ⟨a, ha, rfl⟩ := List.mem_map.mp he
    exact scaled_sum_le a.time a.duration D (planEnd (scalePass1 D l)) hE1pos (by omega)
      (planEnd_ge_mem ha)
  have hlb : D ≤ planEnd (scaleNoFloor D (scalePass1 D l)) := by
    obtain ⟨em, hem, hmax⟩ := planEnd_attained hE1pos
    have hsum := scaled_sum_ge em.time em.duration D (planEnd (scalePass1 D l)) hE1pos hmax
    have hmem2 :
        ({em with
            time := roundDiv (em.time * D) (planEnd (scalePass1 D l)),
            duration := roundDiv (em.duration * D) (planEnd (scalePass1 D l))} : MEvent) ∈
          scaleNoFloor D (scalePass1 D l) := by
      rw [hl2eq]
      exact List.mem_map_of_mem _ hem
    have h3 : roundDiv (em.time * D) (planEnd (scalePass1 D l)) +
        roundDiv (em.duration * D) (planEnd (scalePass1 D l)) ≤
          planEnd (scaleNoFloor D (scalePass1 D l)) := planEnd_ge_mem hmem2
    omega
  have hfinal : temporalScaler D l = scaleNoFloor D (scalePass1 D l) := by
    rw [temporalScaler, scalePass2, if_pos ⟨by omega, hne1⟩, if_neg (by omega)]
  rw [hfinal]
  exact ⟨hlb, hub, by omega, by omega⟩

/-- Witness for C3 (amended) at a 100 ms note scaled to a 1000 ms target. -/
theorem temporalScaler_within_four_percent_witness :
    ((25 : Int) ≤ 1000 ∧ ([⟨60, 0, 100, 80⟩] : List MEvent) ≠ [] ∧
      (∀ e ∈ ([⟨60, 0, 100, 80⟩] : List MEvent), 0 ≤ e.time) ∧
      0 < planEnd [⟨60, 0, 100, 80⟩]) ∧
    1000 ≤ planEnd (temporalScaler 1000 [⟨60, 0, 100, 80⟩]) ∧
    100 * planEnd (temporalScaler 1000 [⟨60, 0, 100, 80⟩]) ≤ 104 * 1000 := by
  have h := temporalScaler_within_four_percent [⟨60, 0, 100, 80⟩] 1000 (by decide)
    (by decide) (by decide) (by decide)
  exact ⟨⟨by decide, by decide, by decide, by decide⟩, h.1, h.2.2.2⟩

/-- Counterexample to C3 as stated: for target D = 24 and the plan
`[{time 1, duration 2}]` the scaler yields `[{2, 23}]`, whose end 25
satisfies `25/24 > 1.04` — outside the 4% band, because the ±1 ms rounding
slack only fits 4% when `D ≥ 25`. -/
theorem temporalScaler_misses_four_percent :
    planEnd (temporalScaler 24 [⟨60, 1, 2, 80⟩]) = 25 ∧
    104 * 24 < 100 * planEnd (temporalScaler 24 [⟨60, 1, 2, 80⟩]) := by
  constructor <;> decide
